import Mathlib

/-!
Shallow embedding of the control core of the arduino-clock appliance.
The repository ships only declarations (src/arduino-clock/arduino-clock.h)
and compile-time configuration (src/arduino-clock/configs/*.h); the function
bodies are not part of the sources.  Following the specification (spec.md),
each operation below is modelled from the spec's description of the declared
symbol, and the configuration constants are taken verbatim from
configs/led7segHT-avr.h.
-/

namespace ArduinoClock

/-! ## Configuration constants (from src/arduino-clock/configs/led7segHT-avr.h) -/

/-- CTRL_HOLD_SHORT_DUR: ms threshold for a short hold (entering setting mode). -/
def CTRL_HOLD_SHORT_DUR : Nat := 1000

/-- CTRL_HOLD_LONG_DUR: ms threshold for a long hold (entering settings menu). -/
def CTRL_HOLD_LONG_DUR : Nat := 3000

/-- CTRL_HOLD_VERYLONG_DUR: ms threshold for a very-long hold. -/
def CTRL_HOLD_VERYLONG_DUR : Nat := 5000

/-- CTRL_HOLD_SUPERLONG_DUR: ms threshold for a super-long hold. -/
def CTRL_HOLD_SUPERLONG_DUR : Nat := 10000

/-- STOPWATCH_TIMEOUT: timeout (s) for the stopwatch function. -/
def STOPWATCH_TIMEOUT : Nat := 10

/-- ANTI_DRIFT: configured drift constant (ms to add/remove per second). -/
def ANTI_DRIFT : Int := 0

/-! ## Calendar arithmetic (Timekeeping Engine) -/

/-- Modelled from the spec: leap years are years divisible by 4 except
centuries unless divisible by 400 (declared helper of `daysInMonth`,
body absent from the sources). -/
def isLeapYear (y : Nat) : Bool :=
  y % 4 == 0 && (y % 100 != 0 || y % 400 == 0)

/-- Modelled from the spec: `daysInMonth(y,m)` returns 29 for February in and
only in leap years, and the fixed Gregorian month length otherwise (the
declaration `byte daysInMonth(word y, byte m)` has no body in the sources). -/
def daysInMonth (y m : Nat) : Nat :=
  if m == 2 then (if isLeapYear y then 29 else 28)
  else if m == 4 || m == 6 || m == 9 || m == 11 then 30
  else 31

/-- The fixed Gregorian length of month `m` of a common (non-leap) year,
as tabulated in reference calendars. -/
def gregorianMonthLength (m : Nat) : Nat :=
  match m with
  | 1 => 31 | 2 => 28 | 3 => 31 | 4 => 30 | 5 => 31 | 6 => 30
  | 7 => 31 | 8 => 31 | 9 => 30 | 10 => 31 | 11 => 30 | 12 => 31
  | _ => 0

/-- Modelled from the spec: `daysInYear(y)` (declared, body absent). -/
def daysInYear (y : Nat) : Nat := 337 + daysInMonth y 2

theorem daysInYear_pos (y : Nat) : 0 < daysInYear y := by
  unfold daysInYear
  omega

theorem daysInMonth_pos (y m : Nat) : 0 < daysInMonth y m := by
  unfold daysInMonth
  split
  · split <;> omega
  · split <;> omega

/-- Days in the `k` consecutive months `m, m+1, ..., m+k-1` of year `y`. -/
def monthsFrom (y m : Nat) : Nat → Nat
  | 0 => 0
  | k + 1 => daysInMonth y m + monthsFrom y (m + 1) k

/-- Days in the `k` consecutive years `y, y+1, ..., y+k-1`. -/
def yearsDays (y : Nat) : Nat → Nat
  | 0 => 0
  | k + 1 => daysInYear y + yearsDays (y + 1) k

/-- Modelled from the spec: `dateToDayCount(y,m,d)` — closed-form proleptic
date-to-day-count transform, here with epoch 2000-01-01 = day 0 (the
declaration `int dateToDayCount(word y, byte m, byte d)` has no body in the
sources; the spec fixes the reference point 2000-01-01). -/
def dateToDayCount (y m d : Nat) : Nat :=
  yearsDays 2000 (y - 2000) + monthsFrom y 1 (m - 1) + (d - 1)

/-- Modelled from the spec: `dayOfWeek(y,m,d)` computed from the
date-to-day-count transform; 0 = Sunday, so 2000-01-01 (day 0) maps to 6 =
Saturday as the spec's reference point requires. -/
def dayOfWeek (y m d : Nat) : Nat :=
  (dateToDayCount y m d + 6) % 7

/-- A valid calendar date of the clock (the spec's ClockTime invariant),
within the epoch-based year range of the software clock. -/
def validDate (y m d : Nat) : Prop :=
  2000 ≤ y ∧ 1 ≤ m ∧ m ≤ 12 ∧ 1 ≤ d ∧ d ≤ daysInMonth y m

instance (y m d : Nat) : Decidable (validDate y m d) := by
  unfold validDate
  infer_instance

/-! ## C1: daysInMonth -/

theorem isLeapYear_iff (y : Nat) :
    isLeapYear y = true ↔ (y % 4 = 0 ∧ (y % 100 ≠ 0 ∨ y % 400 = 0)) := by
  unfold isLeapYear
  simp [Bool.and_eq_true, Bool.or_eq_true, bne_iff_ne]

theorem daysInMonth_feb (y : Nat) :
    daysInMonth y 2 = if isLeapYear y then 29 else 28 := rfl

/-- C1: for every year `y` and month `1 ≤ m ≤ 12`, `daysInMonth y m` returns
29 for February if and only if `y` is divisible by 4 and (not divisible by
100 or divisible by 400); for every other month it returns the fixed
Gregorian month length. -/
theorem daysInMonth_spec (y m : Nat) (h1 : 1 ≤ m) (h2 : m ≤ 12) :
    (daysInMonth y 2 = 29 ↔ (y % 4 = 0 ∧ (y % 100 ≠ 0 ∨ y % 400 = 0))) ∧
    (m ≠ 2 → daysInMonth y m = gregorianMonthLength m) := by
  constructor
  · rw [daysInMonth_feb, ← isLeapYear_iff]
    cases hb : isLeapYear y <;> simp [hb]
  · intro hm
    interval_cases m <;> simp_all [daysInMonth, gregorianMonthLength]

/-- C1 witness: instantiated at year 2024, month 3. -/
theorem daysInMonth_spec_witness :
    (daysInMonth 2024 2 = 29 ↔ (2024 % 4 = 0 ∧ (2024 % 100 ≠ 0 ∨ 2024 % 400 = 0))) ∧
    (3 ≠ 2 → daysInMonth 2024 3 = gregorianMonthLength 3) :=
  daysInMonth_spec 2024 3 (by decide) (by decide)

/-! ## Settings Editor (startSet / doSet) -/

/-- A settings-edit session (the spec's SettingsSession): current value,
bounds, and the current velocity classification. -/
structure SettingsSession where
  val : Int
  lo : Int
  hi : Int
  velocity : Bool
deriving DecidableEq

/-- Step multiplier for the velocity classification: ×1 low, ×10 high. -/
def stepSize (velocity : Bool) : Int := if velocity then 10 else 1

/-- Clamp `v` into `[lo, hi]`. -/
def clampInt (lo hi v : Int) : Int := max lo (min hi v)

/-- Modelled from the spec: `startSet(n, m, x, p)` opens a settings-edit
session with current value `n` and bounds `[m, x]` (the declaration
`void startSet(int n, int m, int x, byte p)` has no body in the sources;
`p` selects the display page and does not affect value semantics). -/
def startSet (n m x : Int) : SettingsSession := ⟨n, m, x, false⟩

/-- Modelled from the spec: `doSet(delta)` applies `delta × step` to the
session value, clamped to `[min, max]` with no wraparound (the declaration
`void doSet(int delta)` has no body in the sources). -/
def doSet (s : SettingsSession) (delta : Int) : SettingsSession :=
  { s with val := clampInt s.lo s.hi (s.val + delta * stepSize s.velocity) }

/-- A finite sequence of `doSet` calls applied in order. -/
def doSetRun (s : SettingsSession) (ds : List Int) : SettingsSession :=
  ds.foldl doSet s

theorem doSet_fields (s : SettingsSession) (d : Int) :
    (doSet s d).lo = s.lo ∧ (doSet s d).hi = s.hi ∧ (doSet s d).velocity = s.velocity :=
  ⟨rfl, rfl, rfl⟩

theorem doSet_val_bounds (s : SettingsSession) (d : Int) (h : s.lo ≤ s.hi) :
    s.lo ≤ (doSet s d).val ∧ (doSet s d).val ≤ s.hi := by
  simp only [doSet, clampInt]
  omega

theorem doSetRun_invariant (ds : List Int) (s : SettingsSession)
    (h1 : s.lo ≤ s.val) (h2 : s.val ≤ s.hi) :
    s.lo ≤ (doSetRun s ds).val ∧ (doSetRun s ds).val ≤ s.hi ∧
    (doSetRun s ds).lo = s.lo ∧ (doSetRun s ds).hi = s.hi := by
  induction ds generalizing s with
  | nil => exact ⟨h1, h2, rfl, rfl⟩
  | cons d ds ih =>
    have hlh : s.lo ≤ s.hi := le_trans h1 h2
    have hb := doSet_val_bounds s d hlh
    have hf := doSet_fields s d
    have := ih (doSet s d) (hf.1 ▸ hb.1) (hf.2.1 ▸ hb.2)
    simpa [doSetRun, hf.1, hf.2.1] using this

/-! ## C6: doSet stays in bounds -/

/-- C6: for every settings session with in-bounds current value and every
finite sequence of `doSet(delta)` calls, each call adds `delta × step`
(step 1 or 10 per the velocity classification) clamped into `[lo, hi]`,
and the session's value never leaves `[lo, hi]` at any point of the run. -/
theorem doSet_spec (s : SettingsSession) (ds : List Int)
    (h1 : s.lo ≤ s.val) (h2 : s.val ≤ s.hi) :
    (∀ d, (doSet s d).val = clampInt s.lo s.hi (s.val + d * stepSize s.velocity)) ∧
    stepSize false = 1 ∧ stepSize true = 10 ∧
    (∀ k, s.lo ≤ (doSetRun s (ds.take k)).val ∧ (doSetRun s (ds.take k)).val ≤ s.hi) := by
  refine ⟨fun d => rfl, rfl, rfl, fun k => ?_⟩
  have := doSetRun_invariant (ds.take k) s h1 h2
  exact ⟨this.1, this.2.1⟩

/-- C6 witness: editing a minute field at low velocity (step 1), three
`doSet(+1)` calls from value 58 with bounds [0, 59] clamp at 59 after each
call and never wrap to 0. -/
theorem doSet_spec_witness :
    (0 ≤ (doSetRun (startSet 58 0 59) ([1, 1, 1].take 3)).val ∧
      (doSetRun (startSet 58 0 59) ([1, 1, 1].take 3)).val ≤ 59) ∧
    (doSetRun (startSet 58 0 59) [1]).val = 59 ∧
    (doSetRun (startSet 58 0 59) [1, 1]).val = 59 ∧
    (doSetRun (startSet 58 0 59) [1, 1, 1]).val = 59 :=
  ⟨(doSet_spec (startSet 58 0 59) [1, 1, 1] (by decide) (by decide)).2.2.2 3,
    by decide, by decide, by decide⟩

/-! ## Timer/Stopwatch state machine -/

/-- The timer's run state (the spec's TimerState state component). -/
inductive TimerPhase
  | idle
  | running
  | paused
  | expired
deriving DecidableEq

/-- Timer/Stopwatch state: phase plus remaining countdown duration (s). -/
structure Timer where
  phase : TimerPhase
  remaining : Nat
deriving DecidableEq

/-- Modelled from the spec: `timerStart()` — start: idle → running with the
set duration (the declaration has no body in the sources). -/
def timerStart (t : Timer) (dur : Nat) : Timer :=
  if t.phase = .idle then ⟨.running, dur⟩ else t

/-- Modelled from the spec: `timerStop()` — pause: running → paused,
preserving the remaining duration (the declaration has no body in the
sources). -/
def timerStop (t : Timer) : Timer :=
  if t.phase = .running then ⟨.paused, t.remaining⟩ else t

/-- Modelled from the spec: resume — paused → running, preserving the
remaining duration. -/
def timerResume (t : Timer) : Timer :=
  if t.phase = .paused then ⟨.running, t.remaining⟩ else t

/-- Modelled from the spec: `timerClear()` — any state → idle, discarding
the remaining/elapsed value (the declaration has no body in the sources). -/
def timerClear (_t : Timer) : Timer := ⟨.idle, 0⟩

/-- Modelled from the spec: one second of countdown elapsing while running;
reaching zero transitions running → expired. -/
def timerTick (t : Timer) : Timer :=
  if t.phase = .running then
    if t.remaining ≤ 1 then ⟨.expired, 0⟩ else ⟨.running, t.remaining - 1⟩
  else t

/-- The transitions the spec admits for the Timer/Stopwatch state machine:
staying put, idle → running (start), running → paused (pause),
running → expired (countdown reaching zero), paused → running (resume),
and any state → idle (clear). -/
def allowedTransition (a b : TimerPhase) : Prop :=
  a = b ∨ (a = .idle ∧ b = .running) ∨ (a = .running ∧ b = .paused) ∨
    (a = .running ∧ b = .expired) ∨ (a = .paused ∧ b = .running) ∨ b = .idle

/-! ## C8: Timer/Stopwatch transitions -/

/-- C8: the timer state machine admits only the transitions idle → running
(start), running → paused (pause), running → expired (countdown reaching
zero), paused → running (resume, remaining unchanged) and any state → idle
(clear, remaining discarded to 0); each operation realises its transition
from the proper state. -/
theorem timer_spec :
    (∀ r d, timerStart ⟨.idle, r⟩ d = ⟨.running, d⟩) ∧
    (∀ r, timerStop ⟨.running, r⟩ = ⟨.paused, r⟩) ∧
    (∀ r, timerResume ⟨.paused, r⟩ = ⟨.running, r⟩) ∧
    (timerTick ⟨.running, 1⟩ = ⟨.expired, 0⟩) ∧
    (∀ r, timerTick ⟨.running, r + 2⟩ = ⟨.running, r + 1⟩) ∧
    (∀ t, timerClear t = ⟨.idle, 0⟩) ∧
    (∀ t d, allowedTransition t.phase (timerStart t d).phase ∧
      allowedTransition t.phase (timerStop t).phase ∧
      allowedTransition t.phase (timerResume t).phase ∧
      allowedTransition t.phase (timerTick t).phase ∧
      allowedTransition t.phase (timerClear t).phase) := by
  refine ⟨fun r d => rfl, fun r => rfl, fun r => rfl, rfl, fun r => ?_, fun t => rfl, fun t d => ?_⟩
  · simp [timerTick]
  · obtain ⟨p, r⟩ := t
    cases p <;>
      simp [timerStart, timerStop, timerResume, timerTick, timerClear, allowedTransition] <;>
      by_cases hr : r ≤ 1 <;> simp [hr]

/-! ## ClockTime and settings-edit commit -/

/-- The authoritative current date-time (the spec's ClockTime). -/
structure ClockTime where
  year : Nat
  month : Nat
  day : Nat
  hour : Nat
  minute : Nat
  second : Nat
deriving DecidableEq

/-- A ClockTime satisfying the spec's invariant: a valid calendar date and
in-range time-of-day fields. -/
def validTime (t : ClockTime) : Prop :=
  validDate t.year t.month t.day ∧ t.hour ≤ 23 ∧ t.minute ≤ 59 ∧ t.second ≤ 59

instance (t : ClockTime) : Decidable (validTime t) := by
  unfold validTime
  infer_instance

/-- Modelled from the spec: committing a settings edit of the clock —
out-of-range calendar input is rejected at commit and the prior valid
ClockTime is retained with no partial update (spec §4.2 failure semantics
and §7; the commit path of the Settings Editor has no body in the
sources). -/
def commitTime (cur proposed : ClockTime) : ClockTime :=
  if validTime proposed then proposed else cur

/-! ## C9: invalid calendar commit is rejected whole -/

/-- C9: for every settings-edit commit whose calendar input is out of range,
the commit is rejected and the ClockTime afterwards equals the prior valid
ClockTime exactly — no field of it is partially updated. -/
theorem commitTime_spec (cur proposed : ClockTime) (h : ¬ validTime proposed) :
    commitTime cur proposed = cur ∧
    (commitTime cur proposed).year = cur.year ∧
    (commitTime cur proposed).month = cur.month ∧
    (commitTime cur proposed).day = cur.day ∧
    (commitTime cur proposed).hour = cur.hour ∧
    (commitTime cur proposed).minute = cur.minute ∧
    (commitTime cur proposed).second = cur.second := by
  have he : commitTime cur proposed = cur := by simp [commitTime, h]
  exact ⟨he, by rw [he], by rw [he], by rw [he], by rw [he], by rw [he], by rw [he]⟩

/-- C9 witness: a commit proposing day 32 of January leaves the prior
ClockTime untouched. -/
theorem commitTime_spec_witness :
    commitTime ⟨2024, 1, 15, 12, 30, 0⟩ ⟨2024, 1, 32, 0, 0, 0⟩ = ⟨2024, 1, 15, 12, 30, 0⟩ :=
  (commitTime_spec ⟨2024, 1, 15, 12, 30, 0⟩ ⟨2024, 1, 32, 0, 0, 0⟩ (by decide)).1

/-! ## ctrlEvt and its default velocity argument -/

/-- The semantic roles of the physical controls (the pin assignments in the
configuration are hardware details). -/
inductive Ctrl
  | sel
  | up
  | dn
deriving DecidableEq

/-- Modelled from the spec: `ctrlEvt(ctrl, evt, evtLast, velocity)` — while a
settings-edit session is active, an Up/Down control event is forwarded to
the Settings Editor as `doSet(±1)` after recording the velocity
classification (step ×1 low, ×10 high) in the session (the declaration
`void ctrlEvt(byte ctrl, byte evt, byte evtLast, bool velocity=0)` at
src/arduino-clock/arduino-clock.h line 14 has no body in the sources). -/
def ctrlEvt (ctrl : Ctrl) (evt evtLast : Nat) (velocity : Bool)
    (s : SettingsSession) : SettingsSession :=
  match ctrl with
  | .up => doSet { s with velocity := velocity } 1
  | .dn => doSet { s with velocity := velocity } (-1)
  | .sel => s

/-- The C++ declaration gives `velocity` the default argument `0` (false): a
three-argument call `ctrlEvt(ctrl, evt, evtLast)` elaborates to
`ctrlEvt(ctrl, evt, evtLast, 0)`. -/
def ctrlEvtDefault (ctrl : Ctrl) (evt evtLast : Nat) (s : SettingsSession) : SettingsSession :=
  ctrlEvt ctrl evt evtLast false s

/-! ## C10: default velocity is low -/

/-- C10: every `ctrlEvt` call made without an explicit velocity argument is
processed with velocity = false (low velocity, step ×1) — it equals the
four-argument call with velocity 0 — and ×10 stepping occurs only when a
caller passes velocity = true explicitly. -/
theorem ctrlEvt_default_spec :
    (∀ c e l s, ctrlEvtDefault c e l s = ctrlEvt c e l false s) ∧
    (∀ e l s, (ctrlEvt .up e l false s).val = clampInt s.lo s.hi (s.val + 1)) ∧
    (∀ e l s, (ctrlEvt .dn e l false s).val = clampInt s.lo s.hi (s.val - 1)) ∧
    (∀ e l s, (ctrlEvt .up e l true s).val = clampInt s.lo s.hi (s.val + 10)) ∧
    (∀ e l s, (ctrlEvt .dn e l true s).val = clampInt s.lo s.hi (s.val - 10)) := by
  refine ⟨fun c e l s => rfl, fun e l s => ?_, fun e l s => ?_, fun e l s => ?_, fun e l s => ?_⟩
  · simp [ctrlEvt, doSet, stepSize]
  · simp [ctrlEvt, doSet, stepSize, sub_eq_add_neg]
  · simp [ctrlEvt, doSet, stepSize]
  · simp [ctrlEvt, doSet, stepSize, sub_eq_add_neg]

/-! ## Drift correction (millisCheckDrift) -/

/-- The spec's DriftState: accumulated sub-second error (ms) and the whole
seconds of correction applied so far to the perceived time. -/
structure DriftState where
  err : Int
  offset : Int
deriving DecidableEq

/-- Modelled from the spec: one correction interval (one elapsed second) of
`millisCheckDrift` / `millisApplyDrift` — the drift constant `D` (ms per
second, the configuration's ANTI_DRIFT) is accumulated into the sub-second
error, and when the accumulated error crosses a whole second (1000 ms)
exactly one whole-second correction is applied to the perceived time (the
declarations have no bodies in the sources). -/
def driftStep (D : Int) (s : DriftState) : DriftState :=
  if 1000 ≤ s.err + D then ⟨s.err + D - 1000, s.offset + 1⟩
  else if s.err + D ≤ -1000 then ⟨s.err + D + 1000, s.offset - 1⟩
  else ⟨s.err + D, s.offset⟩

/-- Drift state after `n` seconds of elapsed real time, starting from a
freshly reset clock (`millisReset`). -/
def driftRun (D : Int) : Nat → DriftState
  | 0 => ⟨0, 0⟩
  | n + 1 => driftStep D (driftRun D n)

theorem driftStep_offset_bound (D : Int) (s : DriftState) :
    (driftStep D s).offset - s.offset ≤ 1 ∧ s.offset - (driftStep D s).offset ≤ 1 := by
  unfold driftStep
  by_cases h1 : 1000 ≤ s.err + D
  · simp only [if_pos h1]
    omega
  · by_cases h2 : s.err + D ≤ -1000
    · simp only [if_neg h1, if_pos h2]
      omega
    · simp only [if_neg h1, if_neg h2]
      omega

theorem driftStep_invariant (D : Int) (s : DriftState) (hD1 : -1000 ≤ D) (hD2 : D ≤ 1000)
    (hl : -1000 < s.err) (hr : s.err < 1000) :
    (driftStep D s).offset * 1000 + (driftStep D s).err = s.offset * 1000 + s.err + D ∧
    -1000 < (driftStep D s).err ∧ (driftStep D s).err < 1000 := by
  unfold driftStep
  by_cases h1 : 1000 ≤ s.err + D
  · simp only [if_pos h1]
    refine ⟨by ring, by omega, by omega⟩
  · by_cases h2 : s.err + D ≤ -1000
    · simp only [if_neg h1, if_pos h2]
      refine ⟨by ring, by omega, by omega⟩
    · simp only [if_neg h1, if_neg h2]
      refine ⟨by ring, by omega, by omega⟩

theorem driftRun_invariant (D : Int) (hD1 : -1000 ≤ D) (hD2 : D ≤ 1000) (n : Nat) :
    (driftRun D n).offset * 1000 + (driftRun D n).err = n * D ∧
    -1000 < (driftRun D n).err ∧ (driftRun D n).err < 1000 := by
  induction n with
  | zero => simp [driftRun]
  | succ n ih =>
    obtain ⟨ihe, ihl, ihr⟩ := ih
    have hs := driftStep_invariant D (driftRun D n) hD1 hD2 ihl ihr
    have hrw : driftRun D (n + 1) = driftStep D (driftRun D n) := rfl
    refine ⟨?_, ?_, ?_⟩
    · rw [hrw, hs.1, ihe]
      push_cast
      ring
    · rw [hrw]
      exact hs.2.1
    · rw [hrw]
      exact hs.2.2

/-! ## C4: drift correction bounds -/

/-- C4: drift correction applies at most one whole-second correction per
correction interval (never double-applied), never moves the visible clock
backward by more than one second at a time, and after `N` seconds of
elapsed real time with drift constant `D` the perceived-time offset (in ms)
is within one correction interval (1000 ms) of `N × D`. -/
theorem millisCheckDrift_spec (D : Int) (N : Nat) (hD1 : -1000 ≤ D) (hD2 : D ≤ 1000) :
    ((driftRun D N).offset * 1000 - N * D ≤ 1000 ∧
      -1000 ≤ (driftRun D N).offset * 1000 - N * D) ∧
    (∀ k : Nat, (driftRun D (k + 1)).offset - (driftRun D k).offset ≤ 1 ∧
      (driftRun D k).offset - (driftRun D (k + 1)).offset ≤ 1) := by
  constructor
  · have h := driftRun_invariant D hD1 hD2 N
    omega
  · intro k
    exact driftStep_offset_bound D (driftRun D k)

/-- C4 witness: drift constant 300 ms/s over 7 seconds keeps the applied
offset within one interval of 7 × 300 ms, and each of the first intervals
adjusts by at most one second. -/
theorem millisCheckDrift_spec_witness :
    ((driftRun 300 7).offset * 1000 - ((7 : Nat) : Int) * 300 ≤ 1000 ∧
      -1000 ≤ (driftRun 300 7).offset * 1000 - ((7 : Nat) : Int) * 300) ∧
    ((driftRun 300 (3 + 1)).offset - (driftRun 300 3).offset ≤ 1 ∧
      (driftRun 300 3).offset - (driftRun 300 (3 + 1)).offset ≤ 1) :=
  ⟨(millisCheckDrift_spec 300 7 (by decide) (by decide)).1,
    (millisCheckDrift_spec 300 7 (by decide) (by decide)).2 3⟩

/-! ## Alarm Scheduler (checkRTC) -/

/-- The spec's AlarmConfig: alarm time, enabled flag, per-occurrence skip
flag, and whether the auto-skip rule excludes the current occurrence. -/
structure AlarmConfig where
  hour : Nat
  minute : Nat
  enabled : Bool
  skip : Bool
  autoSkipped : Bool
deriving DecidableEq

/-- Modelled from the spec: the alarm-fire condition — ClockTime's
hour:minute equals the configured alarm time, the alarm is enabled, the
per-occurrence skip flag is clear, and the occurrence is not auto-skipped. -/
def alarmShouldFire (cfg : AlarmConfig) (t : ClockTime) : Bool :=
  cfg.enabled && !cfg.skip && !cfg.autoSkipped &&
    (t.hour == cfg.hour) && (t.minute == cfg.minute)

/-- Modelled from the spec: one poll of `checkRTC` — the Alarm Scheduler
tracks the last hour:minute it processed ("already fired this minute") and
evaluates the alarm condition only on the minute edge; it returns the new
tracking state and whether a Signal Session is requested (the declaration
`void checkRTC(bool force)` has no body in the sources). -/
def checkRTC (cfg : AlarmConfig) (lastMin : Option (Nat × Nat)) (t : ClockTime) :
    Option (Nat × Nat) × Bool :=
  if lastMin = some (t.hour, t.minute) then (lastMin, false)
  else (some (t.hour, t.minute), alarmShouldFire cfg t)

/-- Number of Signal Session requests issued over a sequence of polls. -/
def checkRTCFires (cfg : AlarmConfig) (lastMin : Option (Nat × Nat)) :
    List ClockTime → Nat
  | [] => 0
  | t :: ts =>
    (if (checkRTC cfg lastMin t).2 then 1 else 0) +
      checkRTCFires cfg (checkRTC cfg lastMin t).1 ts

theorem checkRTCFires_sameMinute (cfg : AlarmConfig) (H M : Nat) (ts : List ClockTime)
    (h : ∀ u ∈ ts, u.hour = H ∧ u.minute = M) :
    checkRTCFires cfg (some (H, M)) ts = 0 := by
  induction ts with
  | nil => rfl
  | cons t ts ih =>
    obtain ⟨hh, hm⟩ := h t (List.mem_cons_self t ts)
    have hsame : checkRTC cfg (some (H, M)) t = (some (H, M), false) := by
      simp [checkRTC, hh, hm]
    simp only [checkRTCFires, hsame]
    simpa using ih (fun u hu => h u (List.mem_cons_of_mem t hu))

/-! ## C3: alarm fires exactly once per matching minute -/

/-- C3: when the alarm condition holds for a minute, the Alarm Scheduler
requests a Signal Session exactly once over all the polls falling within
that minute — the first poll of the minute fires and no later poll of the
same minute (any count, any seconds) fires again. -/
theorem checkRTC_spec (cfg : AlarmConfig) (st : Option (Nat × Nat))
    (t : ClockTime) (ts : List ClockTime)
    (hcond : alarmShouldFire cfg t = true)
    (hst : st ≠ some (t.hour, t.minute))
    (hts : ∀ u ∈ ts, u.hour = t.hour ∧ u.minute = t.minute) :
    checkRTCFires cfg st (t :: ts) = 1 := by
  have hfirst : checkRTC cfg st t = (some (t.hour, t.minute), true) := by
    simp [checkRTC, hst, hcond]
  simp only [checkRTCFires, hfirst]
  simpa using checkRTCFires_sameMinute cfg t.hour t.minute ts hts

/-- C3 witness: alarm set to 07:00, enabled, skip clear, not auto-skipped;
polls at 07:00:00, 07:00:01 and 07:00:02 request exactly one Signal
Session. -/
theorem checkRTC_spec_witness :
    checkRTCFires ⟨7, 0, true, false, false⟩ (some (6, 59))
      (⟨2024, 1, 15, 7, 0, 0⟩ ::
        [⟨2024, 1, 15, 7, 0, 1⟩, ⟨2024, 1, 15, 7, 0, 2⟩]) = 1 :=
  checkRTC_spec ⟨7, 0, true, false, false⟩ (some (6, 59))
    ⟨2024, 1, 15, 7, 0, 0⟩ [⟨2024, 1, 15, 7, 0, 1⟩, ⟨2024, 1, 15, 7, 0, 2⟩]
    (by decide) (by decide) (by decide)

/-! ## Fibonacci alert pattern -/

/-- The Fibonacci sequence of the spec's wake pattern: 1, 1, 2, 3, 5, 8, … -/
def fib : Nat → Nat
  | 0 => 1
  | 1 => 1
  | n + 2 => fib n + fib (n + 1)

theorem fib_add_two (n : Nat) : fib (n + 2) = fib n + fib (n + 1) := rfl

theorem fib_pos (n : Nat) : 0 < fib n := by
  induction n using Nat.strong_induction_on with
  | _ n ih =>
    match n with
    | 0 => decide
    | 1 => decide
    | n + 2 =>
      have h := ih n (by omega)
      rw [fib_add_two]
      omega

theorem fib_le_succ (n : Nat) : fib n ≤ fib (n + 1) := by
  match n with
  | 0 => decide
  | n + 1 =>
    rw [fib_add_two]
    have := fib_pos n
    omega

theorem fib_mono : Monotone fib :=
  monotone_nat_of_le_succ fib_le_succ

/-- Inner loop of the session schedule: starting at Fibonacci index `i` with
`elapsed` time units already spent, emit the next interval only while it
still fits inside the session duration bound.  The fuel argument only
bounds the recursion; `bound + 1` steps always suffice because every
interval is at least one time unit. -/
def fibIntervalsAux (bound : Nat) : Nat → Nat → Nat → List Nat
  | 0, _, _ => []
  | fuel + 1, i, elapsed =>
    if elapsed + fib i ≤ bound then
      fib i :: fibIntervalsAux bound fuel (i + 1) (elapsed + fib i)
    else []

/-- Modelled from the spec: the escalating `fibonacci` wake pattern of an
alarm-triggered Signal Session — successive inter-burst intervals follow
the Fibonacci sequence 1, 1, 2, 3, 5, 8, … (time units) and the schedule is
truncated at the configured maximum session duration `bound` (the
declaration `void fibonacci(byte h, byte m, byte s)` has no body in the
sources). -/
def fibIntervals (bound : Nat) : List Nat :=
  fibIntervalsAux bound (bound + 1) 0 0

theorem fibIntervalsAux_spec (bound : Nat) : ∀ fuel i elapsed,
    bound + 1 ≤ fuel + elapsed →
    (fibIntervalsAux bound fuel i elapsed =
      (List.range (fibIntervalsAux bound fuel i elapsed).length).map (fun j => fib (i + j))) ∧
    (bound < elapsed + (fibIntervalsAux bound fuel i elapsed).sum +
      fib (i + (fibIntervalsAux bound fuel i elapsed).length)) ∧
    (fibIntervalsAux bound fuel i elapsed ≠ [] →
      elapsed + (fibIntervalsAux bound fuel i elapsed).sum ≤ bound) := by
  intro fuel
  induction fuel with
  | zero =>
    intro i elapsed hfuel
    refine ⟨by simp [fibIntervalsAux], ?_, by simp [fibIntervalsAux]⟩
    simp only [fibIntervalsAux, List.sum_nil, List.length_nil]
    omega
  | succ fuel ih =>
    intro i elapsed hfuel
    by_cases hc : elapsed + fib i ≤ bound
    · have hfi := fib_pos i
      have hrec := ih (i + 1) (elapsed + fib i) (by omega)
      obtain ⟨ih1, ih2, ih3⟩ := hrec
      have hunfold : fibIntervalsAux bound (fuel + 1) i elapsed =
          fib i :: fibIntervalsAux bound fuel (i + 1) (elapsed + fib i) := by
        simp [fibIntervalsAux, hc]
      refine ⟨?_, ?_, ?_⟩
      · have htail : fibIntervalsAux bound fuel (i + 1) (elapsed + fib i) =
            List.map ((fun j => fib (i + j)) ∘ Nat.succ)
              (List.range (fibIntervalsAux bound fuel (i + 1) (elapsed + fib i)).length) := by
          conv_lhs => rw [ih1]
          apply List.map_congr_left
          intro a _
          simp only [Function.comp_apply]
          congr 1
          omega
        rw [hunfold, List.length_cons, List.range_succ_eq_map, List.map_cons, List.map_map]
        exact congrArg (List.cons (fib i)) htail
      · rw [hunfold, List.sum_cons, List.length_cons]
        have harg : i + (1 + (fibIntervalsAux bound fuel (i + 1) (elapsed + fib i)).length) =
            (i + 1) + (fibIntervalsAux bound fuel (i + 1) (elapsed + fib i)).length := by omega
        rw [Nat.add_comm (fibIntervalsAux bound fuel (i + 1) (elapsed + fib i)).length 1, harg]
        omega
      · intro _
        rw [hunfold, List.sum_cons]
        by_cases hnil : fibIntervalsAux bound fuel (i + 1) (elapsed + fib i) = []
        · rw [hnil]
          simpa using hc
        · have := ih3 hnil
          omega
    · have hunfold : fibIntervalsAux bound (fuel + 1) i elapsed = [] := by
        simp [fibIntervalsAux, hc]
      refine ⟨by simp [hunfold], ?_, by simp [hunfold]⟩
      rw [hunfold]
      simp only [List.sum_nil, List.length_nil, Nat.add_zero]
      omega

/-! ## C5: fibonacci intervals -/

/-- C5: the inter-burst intervals of the fibonacci wake pattern are exactly
the Fibonacci sequence 1, 1, 2, 3, 5, 8, …, hence non-decreasing, and the
schedule is truncated at the session duration bound: the emitted intervals
fit within the bound, and one more Fibonacci interval would exceed it. -/
theorem fibonacci_spec (bound : Nat) :
    fibIntervals bound = (List.range (fibIntervals bound).length).map fib ∧
    List.Pairwise (· ≤ ·) (fibIntervals bound) ∧
    (fibIntervals bound).sum ≤ bound ∧
    bound < (fibIntervals bound).sum + fib (fibIntervals bound).length := by
  have h := fibIntervalsAux_spec bound (bound + 1) 0 0 (by omega)
  obtain ⟨h1, h2, h3⟩ := h
  have hshape : fibIntervals bound = (List.range (fibIntervals bound).length).map fib := by
    show fibIntervalsAux bound (bound + 1) 0 0 =
      (List.range (fibIntervalsAux bound (bound + 1) 0 0).length).map fib
    conv_lhs => rw [h1]
    apply List.map_congr_left
    intro a _
    simp
  refine ⟨hshape, ?_, ?_, ?_⟩
  · rw [hshape]
    refine List.Pairwise.map fib (fun a b hab => fib_mono (le_of_lt hab)) ?_
    exact List.pairwise_lt_range _
  · by_cases hnil : fibIntervals bound = []
    · simp [hnil]
    · simpa using h3 hnil
  · simpa using h2

/-! ## Input Classifier: hold levels -/

/-- The hold level a press of duration `t` ms has reached: 0 = none,
1 = short, 2 = long, 3 = very-long, 4 = super-long, per the configured
thresholds. -/
def levelOf (t : Nat) : Nat :=
  if CTRL_HOLD_SUPERLONG_DUR ≤ t then 4
  else if CTRL_HOLD_VERYLONG_DUR ≤ t then 3
  else if CTRL_HOLD_LONG_DUR ≤ t then 2
  else if CTRL_HOLD_SHORT_DUR ≤ t then 1
  else 0

/-- Modelled from the spec: the hold classification side of `ctrlEvt` — at
each tick the classifier sees the current hold duration of the sustained
press and reports a hold-level event only when a threshold is first
crossed during the hold, tracking the highest level already reported (the
classifier's body is absent from the sources; thresholds are the
CTRL_HOLD_*_DUR configuration).  `last` is the highest level reported so
far; the list holds the sampled durations tick by tick. -/
def holdEventsAux : Nat → List Nat → List Nat
  | _, [] => []
  | last, t :: ts =>
    if last < levelOf t then levelOf t :: holdEventsAux (levelOf t) ts
    else holdEventsAux last ts

/-- Hold-level events over a single hold, starting with nothing reported. -/
def holdEvents (ts : List Nat) : List Nat := holdEventsAux 0 ts

/-- Highest level reported after processing the sampled durations. -/
def holdState (last : Nat) : List Nat → Nat
  | [] => last
  | t :: ts => holdState (if last < levelOf t then levelOf t else last) ts

theorem levelOf_mono {a b : Nat} (h : a ≤ b) : levelOf a ≤ levelOf b := by
  unfold levelOf CTRL_HOLD_SUPERLONG_DUR CTRL_HOLD_VERYLONG_DUR CTRL_HOLD_LONG_DUR
    CTRL_HOLD_SHORT_DUR
  split_ifs <;> omega

theorem levelOf_zero_of_lt {t : Nat} (h : t < CTRL_HOLD_SHORT_DUR) : levelOf t = 0 := by
  unfold levelOf CTRL_HOLD_SUPERLONG_DUR CTRL_HOLD_VERYLONG_DUR CTRL_HOLD_LONG_DUR
    CTRL_HOLD_SHORT_DUR
  unfold CTRL_HOLD_SHORT_DUR at h
  split_ifs <;> omega

theorem levelOf_pos_of_le {t : Nat} (h : CTRL_HOLD_SHORT_DUR ≤ t) : 1 ≤ levelOf t := by
  unfold levelOf CTRL_HOLD_SUPERLONG_DUR CTRL_HOLD_VERYLONG_DUR CTRL_HOLD_LONG_DUR
    CTRL_HOLD_SHORT_DUR
  unfold CTRL_HOLD_SHORT_DUR at h
  split_ifs <;> omega

theorem holdEventsAux_of_allLe (last : Nat) (ts : List Nat)
    (h : ∀ t ∈ ts, levelOf t ≤ last) : holdEventsAux last ts = [] := by
  induction ts with
  | nil => rfl
  | cons t ts ih =>
    have ht := h t (List.mem_cons_self t ts)
    simp only [holdEventsAux, if_neg (by omega : ¬ last < levelOf t)]
    exact ih fun u hu => h u (List.mem_cons_of_mem t hu)

theorem holdEventsAux_count_zero (L : Nat) (ts : List Nat) : ∀ last, L ≤ last →
    List.count L (holdEventsAux last ts) = 0 := by
  induction ts with
  | nil => intro last _; rfl
  | cons t ts ih =>
    intro last hL
    by_cases hlt : last < levelOf t
    · simp only [holdEventsAux, if_pos hlt, List.count_cons]
      have hne : levelOf t ≠ L := by omega
      simp [hne, ih (levelOf t) (by omega)]
    · simp only [holdEventsAux, if_neg hlt]
      exact ih last hL

theorem holdEventsAux_count_le_one (L : Nat) (ts : List Nat) : ∀ last,
    List.count L (holdEventsAux last ts) ≤ 1 := by
  induction ts with
  | nil => intro last; simp [holdEventsAux]
  | cons t ts ih =>
    intro last
    by_cases hlt : last < levelOf t
    · simp only [holdEventsAux, if_pos hlt, List.count_cons]
      by_cases heq : levelOf t = L
      · subst heq
        simp [holdEventsAux_count_zero (levelOf t) ts (levelOf t) le_rfl]
      · simp [heq, ih (levelOf t)]
    · simp only [holdEventsAux, if_neg hlt]
      exact ih last

theorem holdEventsAux_append (l2 : List Nat) : ∀ (l1 : List Nat) (last : Nat),
    holdEventsAux last (l1 ++ l2) =
      holdEventsAux last l1 ++ holdEventsAux (holdState last l1) l2 := by
  intro l1
  induction l1 with
  | nil => intro last; rfl
  | cons t l1 ih =>
    intro last
    by_cases h : last < levelOf t <;>
      simp [holdEventsAux, holdState, h, ih]

theorem holdState_append (l1 l2 : List Nat) : ∀ last,
    holdState last (l1 ++ l2) = holdState (holdState last l1) l2 := by
  induction l1 with
  | nil => intro last; rfl
  | cons t l1 ih =>
    intro last
    simp only [List.cons_append, holdState]
    exact ih _

theorem holdState_range (T : Nat) : holdState 0 (List.range (T + 1)) = levelOf T := by
  induction T with
  | zero => decide
  | succ T ih =>
    rw [List.range_succ, holdState_append, ih]
    show (if levelOf T < levelOf (T + 1) then levelOf (T + 1) else levelOf T) = levelOf (T + 1)
    have := levelOf_mono (show T ≤ T + 1 by omega)
    by_cases h : levelOf T < levelOf (T + 1) <;> simp [h] <;> omega

theorem holdEvents_range_shortZone (T : Nat) (h : T ≤ CTRL_HOLD_SHORT_DUR) :
    holdEvents (List.range T) = [] := by
  apply holdEventsAux_of_allLe
  intro t ht
  have : t < CTRL_HOLD_SHORT_DUR := by
    have := List.mem_range.mp ht
    omega
  simp [levelOf_zero_of_lt this]

theorem holdEventsAux_count_zero_of_ne (L : Nat) (ts : List Nat) : ∀ last,
    (∀ t ∈ ts, levelOf t ≠ L) → List.count L (holdEventsAux last ts) = 0 := by
  induction ts with
  | nil => intro last _; rfl
  | cons t ts ih =>
    intro last h
    have ht := h t (List.mem_cons_self t ts)
    by_cases hlt : last < levelOf t
    · simp only [holdEventsAux, if_pos hlt, List.count_cons]
      simp [ht, ih (levelOf t) (fun u hu => h u (List.mem_cons_of_mem t hu))]
    · simp only [holdEventsAux, if_neg hlt]
      exact ih last (fun u hu => h u (List.mem_cons_of_mem t hu))

/-- Relation of the hold level to each configured threshold: below the
threshold of a level the classification stays below that level, and at or
above it the classification reaches at least that level. -/
theorem levelOf_bounds (t : Nat) :
    (t < CTRL_HOLD_SHORT_DUR → levelOf t = 0) ∧
    (CTRL_HOLD_SHORT_DUR ≤ t → 1 ≤ levelOf t) ∧
    (t < CTRL_HOLD_LONG_DUR → levelOf t < 2) ∧
    (CTRL_HOLD_LONG_DUR ≤ t → 2 ≤ levelOf t) ∧
    (t < CTRL_HOLD_VERYLONG_DUR → levelOf t < 3) ∧
    (CTRL_HOLD_VERYLONG_DUR ≤ t → 3 ≤ levelOf t) ∧
    (t < CTRL_HOLD_SUPERLONG_DUR → levelOf t < 4) ∧
    (CTRL_HOLD_SUPERLONG_DUR ≤ t → 4 ≤ levelOf t) := by
  unfold levelOf CTRL_HOLD_SUPERLONG_DUR CTRL_HOLD_VERYLONG_DUR CTRL_HOLD_LONG_DUR
    CTRL_HOLD_SHORT_DUR
  split_ifs <;>
    exact ⟨by omega, by omega, by omega, by omega, by omega, by omega, by omega, by omega⟩

/-- For a hold level `L` whose threshold is `B`, a hold observed every
millisecond up to a duration `T ≥ B` reports the level-`L` event exactly
once over the whole hold. -/
theorem holdEvents_count_one_of_threshold (L B T : Nat) (hB : 0 < B)
    (hlow : ∀ t, t < B → levelOf t < L)
    (hat : levelOf B = L)
    (hhigh : ∀ t, B ≤ t → L ≤ levelOf t)
    (hT : B ≤ T) :
    List.count L (holdEvents (List.range (T + 1))) = 1 := by
  induction T with
  | zero => omega
  | succ T ih =>
    by_cases h : B ≤ T
    · have ihv := ih h
      show List.count L (holdEventsAux 0 (List.range (T + 1 + 1))) = 1
      rw [List.range_succ, holdEventsAux_append, List.count_append, holdState_range]
      have hsingle : List.count L (holdEventsAux (levelOf T) [T + 1]) = 0 := by
        by_cases hc : levelOf T < levelOf (T + 1)
        · simp only [holdEventsAux, if_pos hc]
          have hge := hhigh T h
          have : levelOf (T + 1) ≠ L := by omega
          simp [List.count_cons, this, holdEventsAux]
        · simp [holdEventsAux, hc]
      rw [hsingle]
      exact ihv
    · have hBT : B = T + 1 := by omega
      show List.count L (holdEventsAux 0 (List.range (T + 1 + 1))) = 1
      rw [List.range_succ, holdEventsAux_append, List.count_append, holdState_range]
      have h0 : List.count L (holdEventsAux 0 (List.range (T + 1))) = 0 := by
        apply holdEventsAux_count_zero_of_ne
        intro u hu
        have hub : u < B := by
          have := List.mem_range.mp hu
          omega
        have := hlow u hub
        omega
      have hTlt : levelOf T < L := hlow T (by omega)
      have hT1 : levelOf (T + 1) = L := by rw [← hBT]; exact hat
      have hsingle : List.count L (holdEventsAux (levelOf T) [T + 1]) = 1 := by
        have hc : levelOf T < levelOf (T + 1) := by omega
        simp only [holdEventsAux, if_pos hc]
        simp [List.count_cons, hT1, holdEventsAux]
      rw [h0, hsingle]

/-! ## C7: hold classification thresholds -/

/-- C7: during a single sustained hold observed every millisecond, a hold of
exactly CTRL_HOLD_SHORT_DUR − 1 ms emits no hold event at all, a hold of
CTRL_HOLD_SHORT_DUR ms or more emits the short-hold event exactly once (not
once per tick); the same once-per-threshold-crossing rule holds for each
successive level: a hold below the long, very-long or super-long threshold
emits no event of that level, and a hold at or beyond it emits that level's
event exactly once; every hold level is reported at most once per hold for
any polling schedule, and the thresholds are ordered
short < long < very-long < super-long. -/
theorem ctrlEvt_hold_spec (T : Nat) (ts : List Nat) :
    holdEvents (List.range CTRL_HOLD_SHORT_DUR) = [] ∧
    List.count 1 (holdEvents (List.range (CTRL_HOLD_SHORT_DUR + T + 1))) = 1 ∧
    (List.count 2 (holdEvents (List.range CTRL_HOLD_LONG_DUR)) = 0 ∧
      List.count 2 (holdEvents (List.range (CTRL_HOLD_LONG_DUR + T + 1))) = 1) ∧
    (List.count 3 (holdEvents (List.range CTRL_HOLD_VERYLONG_DUR)) = 0 ∧
      List.count 3 (holdEvents (List.range (CTRL_HOLD_VERYLONG_DUR + T + 1))) = 1) ∧
    (List.count 4 (holdEvents (List.range CTRL_HOLD_SUPERLONG_DUR)) = 0 ∧
      List.count 4 (holdEvents (List.range (CTRL_HOLD_SUPERLONG_DUR + T + 1))) = 1) ∧
    (∀ L, List.count L (holdEvents ts) ≤ 1) ∧
    (CTRL_HOLD_SHORT_DUR < CTRL_HOLD_LONG_DUR ∧
      CTRL_HOLD_LONG_DUR < CTRL_HOLD_VERYLONG_DUR ∧
      CTRL_HOLD_VERYLONG_DUR < CTRL_HOLD_SUPERLONG_DUR) := by
  refine ⟨holdEvents_range_shortZone CTRL_HOLD_SHORT_DUR le_rfl,
    ?_, ⟨?_, ?_⟩, ⟨?_, ?_⟩, ⟨?_, ?_⟩, ?_, by decide⟩
  · exact holdEvents_count_one_of_threshold 1 CTRL_HOLD_SHORT_DUR
      (CTRL_HOLD_SHORT_DUR + T) (by decide)
      (fun t ht => by have := (levelOf_bounds t).1 ht; omega)
      (by decide)
      (fun t ht => (levelOf_bounds t).2.1 ht)
      (by omega)
  · apply holdEventsAux_count_zero_of_ne
    intro t ht
    have := (levelOf_bounds t).2.2.1 (List.mem_range.mp ht)
    omega
  · exact holdEvents_count_one_of_threshold 2 CTRL_HOLD_LONG_DUR
      (CTRL_HOLD_LONG_DUR + T) (by decide)
      (fun t ht => (levelOf_bounds t).2.2.1 ht)
      (by decide)
      (fun t ht => (levelOf_bounds t).2.2.2.1 ht)
      (by omega)
  · apply holdEventsAux_count_zero_of_ne
    intro t ht
    have := (levelOf_bounds t).2.2.2.2.1 (List.mem_range.mp ht)
    omega
  · exact holdEvents_count_one_of_threshold 3 CTRL_HOLD_VERYLONG_DUR
      (CTRL_HOLD_VERYLONG_DUR + T) (by decide)
      (fun t ht => (levelOf_bounds t).2.2.2.2.1 ht)
      (by decide)
      (fun t ht => (levelOf_bounds t).2.2.2.2.2.1 ht)
      (by omega)
  · apply holdEventsAux_count_zero_of_ne
    intro t ht
    have := (levelOf_bounds t).2.2.2.2.2.2.1 (List.mem_range.mp ht)
    omega
  · exact holdEvents_count_one_of_threshold 4 CTRL_HOLD_SUPERLONG_DUR
      (CTRL_HOLD_SUPERLONG_DUR + T) (by decide)
      (fun t ht => (levelOf_bounds t).2.2.2.2.2.2.1 ht)
      (by decide)
      (fun t ht => (levelOf_bounds t).2.2.2.2.2.2.2 ht)
      (by omega)
  · intro L
    exact holdEventsAux_count_le_one L ts 0

/-! ## Day count / date conversions and day of week -/

/-- Modelled from the spec: the year-finding half of the inverse of the
date-to-day-count transform — strip whole years from the day count starting
at the epoch year. -/
def yearOf (y n : Nat) : Nat × Nat :=
  if _h : n < daysInYear y then (y, n)
  else yearOf (y + 1) (n - daysInYear y)
termination_by n
decreasing_by
  have := daysInYear_pos y
  omega

/-- Modelled from the spec: the month-finding half of the inverse of the
date-to-day-count transform — strip whole months from the day count within
the found year. -/
def monthOf (y m n : Nat) : Nat × Nat :=
  if _h : n < daysInMonth y m then (m, n)
  else monthOf y (m + 1) (n - daysInMonth y m)
termination_by n
decreasing_by
  have := daysInMonth_pos y m
  omega

/-- Modelled from the spec: day count back to a calendar date (the inverse
direction of `dateToDayCount`, used when a day count is rendered as a
date). -/
def dayCountToDate (n : Nat) : Nat × Nat × Nat :=
  ((yearOf 2000 n).1, (monthOf (yearOf 2000 n).1 1 (yearOf 2000 n).2).1,
    (monthOf (yearOf 2000 n).1 1 (yearOf 2000 n).2).2 + 1)

/-- `dayOfWeek` applied to a (year, month, day) triple. -/
def dayOfWeekT (t : Nat × Nat × Nat) : Nat := dayOfWeek t.1 t.2.1 t.2.2

/-- `dateToDayCount` applied to a (year, month, day) triple. -/
def dateToDayCountT (t : Nat × Nat × Nat) : Nat := dateToDayCount t.1 t.2.1 t.2.2

/-- The calendar successor of a date: next day, rolling the month and the
year per the calendar rules. -/
def nextDate (y m d : Nat) : Nat × Nat × Nat :=
  if d < daysInMonth y m then (y, m, d + 1)
  else if m < 12 then (y, m + 1, 1)
  else (y + 1, 1, 1)

theorem monthsFrom_add (y : Nat) (k1 : Nat) : ∀ k2 m,
    monthsFrom y m (k1 + k2) = monthsFrom y m k1 + monthsFrom y (m + k1) k2 := by
  induction k1 with
  | zero => intro k2 m; simp [monthsFrom]
  | succ k1 ih =>
    intro k2 m
    have hshift : k1 + 1 + k2 = (k1 + k2) + 1 := by omega
    rw [hshift]
    show daysInMonth y m + monthsFrom y (m + 1) (k1 + k2) = _
    rw [ih k2 (m + 1)]
    show _ = (daysInMonth y m + monthsFrom y (m + 1) k1) + monthsFrom y (m + (k1 + 1)) k2
    have harg : m + 1 + k1 = m + (k1 + 1) := by omega
    rw [harg]
    omega

theorem monthsFrom_succ_right (y m k : Nat) :
    monthsFrom y m (k + 1) = monthsFrom y m k + daysInMonth y (m + k) := by
  rw [monthsFrom_add y k 1 m]
  simp [monthsFrom]

theorem monthsFrom_one_twelve (y : Nat) : monthsFrom y 1 12 = daysInYear y := by
  show daysInMonth y 1 + (daysInMonth y 2 + (daysInMonth y 3 + (daysInMonth y 4 +
    (daysInMonth y 5 + (daysInMonth y 6 + (daysInMonth y 7 + (daysInMonth y 8 +
    (daysInMonth y 9 + (daysInMonth y 10 + (daysInMonth y 11 + (daysInMonth y 12 + 0))))))))))) =
    daysInYear y
  have h2 : daysInMonth y 2 = if isLeapYear y then 29 else 28 := rfl
  unfold daysInYear
  rw [h2]
  cases isLeapYear y <;> simp [daysInMonth]

theorem yearsDays_succ_right (a k : Nat) :
    yearsDays a (k + 1) = yearsDays a k + daysInYear (a + k) := by
  induction k generalizing a with
  | zero => simp [yearsDays]
  | succ k ih =>
    show daysInYear a + yearsDays (a + 1) (k + 1) = _
    rw [ih (a + 1)]
    show _ = (daysInYear a + yearsDays (a + 1) k) + daysInYear (a + (k + 1))
    have harg : a + 1 + k = a + (k + 1) := by omega
    rw [harg]
    omega

theorem yearOf_spec (k : Nat) : ∀ y r, r < daysInYear (y + k) →
    yearOf y (yearsDays y k + r) = (y + k, r) := by
  induction k with
  | zero =>
    intro y r hr
    rw [yearOf]
    simp only [yearsDays, Nat.zero_add]
    rw [dif_pos (by simpa using hr)]
    simp
  | succ k ih =>
    intro y r hr
    have hpos := daysInYear_pos y
    have hn : yearsDays y (k + 1) + r = daysInYear y + (yearsDays (y + 1) k + r) := by
      show daysInYear y + yearsDays (y + 1) k + r = _
      omega
    rw [hn, yearOf]
    rw [dif_neg (by omega)]
    have hsub : daysInYear y + (yearsDays (y + 1) k + r) - daysInYear y =
        yearsDays (y + 1) k + r := by omega
    rw [hsub]
    have harg : y + 1 + k = y + (k + 1) := by omega
    have := ih (y + 1) r (by rw [harg]; exact hr)
    rw [this, harg]

theorem monthOf_spec (y : Nat) (k : Nat) : ∀ m r, r < daysInMonth y (m + k) →
    monthOf y m (monthsFrom y m k + r) = (m + k, r) := by
  induction k with
  | zero =>
    intro m r hr
    rw [monthOf]
    simp only [monthsFrom, Nat.zero_add]
    rw [dif_pos (by simpa using hr)]
    simp
  | succ k ih =>
    intro m r hr
    have hpos := daysInMonth_pos y m
    have hn : monthsFrom y m (k + 1) + r = daysInMonth y m + (monthsFrom y (m + 1) k + r) := by
      show daysInMonth y m + monthsFrom y (m + 1) k + r = _
      omega
    rw [hn, monthOf]
    rw [dif_neg (by omega)]
    have hsub : daysInMonth y m + (monthsFrom y (m + 1) k + r) - daysInMonth y m =
        monthsFrom y (m + 1) k + r := by omega
    rw [hsub]
    have harg : m + 1 + k = m + (k + 1) := by omega
    have := ih (m + 1) r (by rw [harg]; exact hr)
    rw [this, harg]

theorem innerCount_lt (y m d : Nat) (hm1 : 1 ≤ m) (hm2 : m ≤ 12)
    (hd1 : 1 ≤ d) (hd2 : d ≤ daysInMonth y m) :
    monthsFrom y 1 (m - 1) + (d - 1) < daysInYear y := by
  have hstep : monthsFrom y 1 (m - 1) + daysInMonth y m = monthsFrom y 1 m := by
    have h1 : m = (m - 1) + 1 := by omega
    have h2 : 1 + (m - 1) = m := by omega
    conv_rhs => rw [h1]
    rw [monthsFrom_succ_right, h2]
  have hmono : monthsFrom y 1 m ≤ monthsFrom y 1 12 := by
    have h12 : (12 : Nat) = m + (12 - m) := by omega
    rw [h12, monthsFrom_add y m (12 - m) 1]
    omega
  rw [← monthsFrom_one_twelve y] at *
  omega

theorem dayCountToDate_roundtrip (y m d : Nat) (h : validDate y m d) :
    dayCountToDate (dateToDayCount y m d) = (y, m, d) := by
  obtain ⟨hy, hm1, hm2, hd1, hd2⟩ := h
  have hinner := innerCount_lt y m d hm1 hm2 hd1 hd2
  have hyk : 2000 + (y - 2000) = y := by omega
  have hcount : dateToDayCount y m d =
      yearsDays 2000 (y - 2000) + (monthsFrom y 1 (m - 1) + (d - 1)) := by
    unfold dateToDayCount
    omega
  have hyear : yearOf 2000 (yearsDays 2000 (y - 2000) + (monthsFrom y 1 (m - 1) + (d - 1))) =
      (y, monthsFrom y 1 (m - 1) + (d - 1)) := by
    have := yearOf_spec (y - 2000) 2000 (monthsFrom y 1 (m - 1) + (d - 1))
      (by rw [hyk]; exact hinner)
    rw [hyk] at this
    exact this
  have hmonth : monthOf y 1 (monthsFrom y 1 (m - 1) + (d - 1)) = (m, d - 1) := by
    have hdm : d - 1 < daysInMonth y (1 + (m - 1)) := by
      have : 1 + (m - 1) = m := by omega
      rw [this]
      omega
    have := monthOf_spec y (m - 1) 1 (d - 1) hdm
    have harg : 1 + (m - 1) = m := by omega
    rw [harg] at this
    exact this
  unfold dayCountToDate
  rw [← hcount] at hyear
  rw [hyear]
  simp only
  rw [hmonth]
  simp only
  have : d - 1 + 1 = d := by omega
  rw [this]

theorem dateToDayCount_nextDate (y m d : Nat) (h : validDate y m d) :
    dateToDayCountT (nextDate y m d) = dateToDayCount y m d + 1 := by
  obtain ⟨hy, hm1, hm2, hd1, hd2⟩ := h
  unfold nextDate
  by_cases hc1 : d < daysInMonth y m
  · rw [if_pos hc1]
    show dateToDayCount y m (d + 1) = dateToDayCount y m d + 1
    unfold dateToDayCount
    omega
  · have hdm : d = daysInMonth y m := by omega
    rw [if_neg hc1]
    by_cases hc2 : m < 12
    · rw [if_pos hc2]
      show dateToDayCount y (m + 1) 1 = dateToDayCount y m d + 1
      unfold dateToDayCount
      have hstep : monthsFrom y 1 (m + 1 - 1) = monthsFrom y 1 (m - 1) + daysInMonth y m := by
        have h1 : m + 1 - 1 = (m - 1) + 1 := by omega
        have h2 : 1 + (m - 1) = m := by omega
        rw [h1, monthsFrom_succ_right, h2]
      have hpos := daysInMonth_pos y m
      omega
    · have hm12 : m = 12 := by omega
      subst hm12
      have hd31 : d = 31 := by
        have : daysInMonth y 12 = 31 := rfl
        omega
      subst hd31
      rw [if_neg hc2]
      show dateToDayCount (y + 1) 1 1 = dateToDayCount y 12 31 + 1
      unfold dateToDayCount
      have hys : yearsDays 2000 (y + 1 - 2000) =
          yearsDays 2000 (y - 2000) + daysInYear y := by
        have h1 : y + 1 - 2000 = (y - 2000) + 1 := by omega
        have h2 : 2000 + (y - 2000) = y := by omega
        rw [h1, yearsDays_succ_right, h2]
      have hall : monthsFrom y 1 12 = daysInYear y := monthsFrom_one_twelve y
      have heleven : monthsFrom y 1 12 = monthsFrom y 1 11 + daysInMonth y 12 := by
        have := monthsFrom_succ_right y 1 11
        simpa using this
      have h31 : daysInMonth y 12 = 31 := rfl
      have hz : monthsFrom (y + 1) 1 0 = 0 := rfl
      have h11 : monthsFrom y 1 (12 - 1) = monthsFrom y 1 11 := rfl
      simp only [Nat.sub_self]
      omega

/-! ## C2: dayOfWeek agrees with the reference calendar -/

/-- C2: `dayOfWeek` is consistent with the proleptic Gregorian reference
calendar — 2000-01-01 is a Saturday (6 with 0 = Sunday) and each valid
date's successor advances the weekday by one modulo 7 — and it is stable
under the date-to-day-count round trip: converting a valid date to its day
count and back yields the same weekday. -/
theorem dayOfWeek_spec (y m d : Nat) (h : validDate y m d) :
    dayOfWeek 2000 1 1 = 6 ∧
    dayOfWeekT (nextDate y m d) = (dayOfWeek y m d + 1) % 7 ∧
    dayOfWeekT (dayCountToDate (dateToDayCount y m d)) = dayOfWeek y m d := by
  refine ⟨by decide, ?_, ?_⟩
  · have hs := dateToDayCount_nextDate y m d h
    unfold dayOfWeekT dayOfWeek
    unfold dateToDayCountT at hs
    rw [hs]
    omega
  · rw [dayCountToDate_roundtrip y m d h]
    rfl

/-- C2 witness: instantiated at the leap day 2024-02-29 (a Thursday). -/
theorem dayOfWeek_spec_witness :
    dayOfWeek 2000 1 1 = 6 ∧
    dayOfWeekT (nextDate 2024 2 29) = (dayOfWeek 2024 2 29 + 1) % 7 ∧
    dayOfWeekT (dayCountToDate (dateToDayCount 2024 2 29)) = dayOfWeek 2024 2 29 :=
  dayOfWeek_spec 2024 2 29 (by decide)

end ArduinoClock
